import Mathlib

/-!
Verification of the FLMR late-interaction retrieval model
(`src/transformers/models/flmr/modeling_flmr.py`).

Tensors are shallowly embedded as nested lists of rationals:
a `(batch, seq, dim)` float tensor becomes `List (List (List ℚ))`,
a `(batch, seq)` boolean mask becomes `List (List Bool)`.
External collaborators (the BERT text encoder, the CLIP vision encoder,
the learned linear projections, torch's row-wise L2 normalisation and the
half-precision cast) are opaque function parameters: every claim proved
here holds for all instantiations of those parameters.
-/

namespace FLMR

/-- A `(batch, seq, dim)` float tensor. -/
abbrev Tensor3 := List (List (List ℚ))

/-- A `(batch, seq)` matrix (e.g. token ids, attention masks). -/
abbrev Mat2 := List (List ℚ)

/-! ### Generic list helpers -/

/-- Maximum of a list of rationals, as computed by a left fold that starts
from the first element (torch's `max` over a non-empty axis).
Returns `0` on the empty list (torch raises there; all theorems below
only use it on non-empty lists). -/
def listMax : List ℚ → ℚ
  | [] => 0
  | x :: xs => xs.foldl max x

theorem foldl_max_mem_or_acc (xs : List ℚ) (a : ℚ) :
    xs.foldl max a = a ∨ xs.foldl max a ∈ xs := by
  induction xs generalizing a with
  | nil => exact Or.inl rfl
  | cons x xs ih =>
    have hfold : (x :: xs).foldl max a = xs.foldl max (max a x) := rfl
    rcases ih (max a x) with h | h
    · rcases max_choice a x with hm | hm
      · exact Or.inl (by rw [hfold, h, hm])
      · refine Or.inr ?_
        rw [hfold, h, hm]
        exact List.mem_cons_self x xs
    · refine Or.inr ?_
      rw [hfold]
      exact List.mem_cons_of_mem x h

theorem acc_le_foldl_max (xs : List ℚ) (a : ℚ) : a ≤ xs.foldl max a := by
  induction xs generalizing a with
  | nil => simp
  | cons x xs ih => exact le_trans (le_max_left a x) (ih (max a x))

theorem mem_le_foldl_max (xs : List ℚ) (a : ℚ) (x : ℚ) (hx : x ∈ xs) :
    x ≤ xs.foldl max a := by
  induction xs generalizing a with
  | nil => cases hx
  | cons y ys ih =>
    rcases List.mem_cons.mp hx with h | h
    · subst h
      exact le_trans (le_max_right a x) (acc_le_foldl_max ys (max a x))
    · exact ih (max a y) h

theorem listMax_mem {l : List ℚ} (h : l ≠ []) : listMax l ∈ l := by
  cases l with
  | nil => cases h rfl
  | cons x xs =>
    rcases foldl_max_mem_or_acc xs x with h' | h'
    · simp [listMax, h']
    · simp [listMax]; right; exact h'

theorem le_listMax {l : List ℚ} {x : ℚ} (hx : x ∈ l) : x ≤ listMax l := by
  cases l with
  | nil => cases hx
  | cons y ys =>
    rcases List.mem_cons.mp hx with h | h
    · subst h; exact acc_le_foldl_max ys x
    · exact mem_le_foldl_max ys y x h

/-- `getD` of a `zipWith` at an in-bounds index. -/
theorem getD_zipWith {α β γ : Type} (f : α → β → γ) (l₁ : List α) (l₂ : List β)
    (i : ℕ) (da : α) (db : β) (dc : γ) (h₁ : i < l₁.length) (h₂ : i < l₂.length) :
    (List.zipWith f l₁ l₂).getD i dc = f (l₁.getD i da) (l₂.getD i db) := by
  induction l₁ generalizing l₂ i with
  | nil => simp at h₁
  | cons x xs ih =>
    cases l₂ with
    | nil => simp at h₂
    | cons y ys =>
      cases i with
      | zero => simp [List.getD]
      | succ n =>
        simp only [List.zipWith_cons_cons]
        simp only [List.getD_cons_succ]
        exact ih ys n (by simpa using h₁) (by simpa using h₂)

/-- `getD` of a `map` at an in-bounds index. -/
theorem getD_map {α β : Type} (f : α → β) (l : List α) (i : ℕ) (da : α) (db : β)
    (h : i < l.length) :
    (l.map f).getD i db = f (l.getD i da) := by
  induction l generalizing i with
  | nil => simp at h
  | cons x xs ih =>
    cases i with
    | zero => simp [List.getD]
    | succ n =>
      simp only [List.map_cons, List.getD_cons_succ]
      exact ih n (by simpa using h)

/-- A list equals the table of its entries over `List.range`. -/
theorem eq_range_map_getD {α : Type} (l : List α) (d : α) :
    l = (List.range l.length).map (fun k => l.getD k d) := by
  apply List.ext_getElem
  · simp
  · intro i h₁ h₂
    simp [List.getD_eq_getElem?_getD, List.getElem?_eq_getElem, h₁]

/-- Split a list into contiguous chunks of at most `n` elements
(the batching behaviour of `_split_into_batches`: contiguous chunks of at
most `bsize` documents, order preserved). -/
def chunksOf {α : Type} : ℕ → List α → List (List α)
  | _, [] => []
  | 0, l => [l]
  | n + 1, x :: xs =>
      ((x :: xs).take (n + 1)) :: chunksOf (n + 1) ((x :: xs).drop (n + 1))
termination_by _ l => l.length
decreasing_by
  simp only [List.drop_succ_cons, List.length_drop, List.length_cons]
  omega

/-- Joining the chunks gives back the original list. -/
theorem chunksOf_flatten {α : Type} (n : ℕ) (l : List α) :
    (chunksOf n l).flatten = l := by
  induction n, l using chunksOf.induct with
  | case1 n => simp [chunksOf]
  | case2 l _ => simp [chunksOf]
  | case3 n x xs ih =>
    rw [chunksOf]
    simp only [List.flatten_cons]
    rw [ih]
    exact List.take_append_drop (n + 1) (x :: xs)

/-- `chunksOf` commutes with `map`. -/
theorem chunksOf_map {α β : Type} (f : α → β) (n : ℕ) (l : List α) :
    chunksOf n (l.map f) = (chunksOf n l).map (List.map f) := by
  induction n, l using chunksOf.induct with
  | case1 n => simp [chunksOf]
  | case2 l h => cases l with
    | nil => simp [chunksOf]
    | cons y ys => rw [chunksOf, chunksOf] <;> simp
  | case3 n x xs ih =>
    simp only [List.map_cons]
    rw [chunksOf, chunksOf]
    simp only [← List.map_cons]
    rw [← List.map_take, ← List.map_drop, ih]
    simp

/-- Split a packed row matrix into per-document segments according to a
list of segment lengths. -/
def splitSegs {α : Type} : List α → List ℕ → List (List α)
  | _, [] => []
  | rows, n :: ns => rows.take n :: splitSegs (rows.drop n) ns

/-- Splitting a concatenation of segments by their own lengths recovers
the segments. -/
theorem splitSegs_flatten {α : Type} (segs : List (List α)) :
    splitSegs segs.flatten (segs.map List.length) = segs := by
  induction segs with
  | nil => rfl
  | cons s ss ih =>
    simp only [List.flatten_cons, List.map_cons, splitSegs]
    rw [List.take_left, List.drop_left]
    simp [ih]

/-! ### Column-wise maximum (torch `Tensor.max(dim)`) -/

/-- `t.max(0).values` for a 2-D tensor given as a list of rows: the
element-wise maximum over the rows. Empty input gives `[]` (torch raises
on an empty reduction axis; theorems below only use non-empty inputs). -/
def maxDim0 : List (List ℚ) → List ℚ
  | [] => []
  | r :: rs => rs.foldl (fun acc row => List.zipWith max acc row) r

theorem foldl_zipWith_max_length (rs : List (List ℚ)) (acc : List ℚ) (L : ℕ)
    (hacc : acc.length = L) (hrs : ∀ r ∈ rs, r.length = L) :
    (rs.foldl (fun acc row => List.zipWith max acc row) acc).length = L := by
  induction rs generalizing acc with
  | nil => simpa using hacc
  | cons r rs ih =>
    simp only [List.foldl_cons]
    exact ih (List.zipWith max acc r)
      (by rw [List.length_zipWith, hacc, hrs r (List.mem_cons_self r rs)]; simp)
      (fun r' hr' => hrs r' (List.mem_cons_of_mem r hr'))

theorem foldl_zipWith_max_getD (rs : List (List ℚ)) (acc : List ℚ) (L k : ℕ)
    (hacc : acc.length = L) (hrs : ∀ r ∈ rs, r.length = L) (hk : k < L) :
    (rs.foldl (fun acc row => List.zipWith max acc row) acc).getD k 0 =
      (rs.map (fun r => r.getD k 0)).foldl max (acc.getD k 0) := by
  induction rs generalizing acc with
  | nil => rfl
  | cons r rs ih =>
    simp only [List.foldl_cons, List.map_cons]
    have hr : r.length = L := hrs r (List.mem_cons_self r rs)
    rw [ih (List.zipWith max acc r)
      (by rw [List.length_zipWith, hacc, hr]; simp)
      (fun r' hr' => hrs r' (List.mem_cons_of_mem r hr'))]
    rw [getD_zipWith max acc r k 0 0 0 (by omega) (by omega)]

/-- Characterisation of `maxDim0` on a non-empty rectangular matrix: column
`k` of the result is the maximum of column `k` of the input. -/
theorem maxDim0_eq (m : List (List ℚ)) (L : ℕ) (hne : m ≠ [])
    (hrect : ∀ r ∈ m, r.length = L) :
    maxDim0 m = (List.range L).map (fun k => listMax (m.map (fun r => r.getD k 0))) := by
  cases m with
  | nil => cases hne rfl
  | cons r rs =>
    have hr : r.length = L := hrect r (List.mem_cons_self r rs)
    have hrs : ∀ r' ∈ rs, r'.length = L :=
      fun r' hr' => hrect r' (List.mem_cons_of_mem r hr')
    apply List.ext_getElem
    · simp [maxDim0, foldl_zipWith_max_length rs r L hr hrs]
    · intro k h1 h2
      have hk : k < L := by simpa using h2
      have hleft : (maxDim0 (r :: rs)).getD k 0 =
          (rs.map (fun row => row.getD k 0)).foldl max (r.getD k 0) := by
        simpa [maxDim0] using foldl_zipWith_max_getD rs r L k hr hrs hk
      have hright :
          ((List.range L).map (fun k => listMax ((r :: rs).map (fun row => row.getD k 0)))).getD k 0 =
            listMax ((r :: rs).map (fun row => row.getD k 0)) := by
        rw [getD_map _ _ k 0 0 (by simpa using hk)]
        simp [List.getD_eq_getElem?_getD, List.getElem?_range hk]
      have hl := hleft
      rw [List.getD_eq_getElem?_getD, List.getElem?_eq_getElem h1] at hl
      rw [List.getD_eq_getElem?_getD, List.getElem?_eq_getElem h2] at hright
      simp only [Option.getD_some] at hl hright
      rw [hl, hright]
      simp [listMax, List.map_cons]

/-! ### Late-interaction scoring (`colbert_score_reduce`, `colbert_score`) -/

/-- Dot product of two embedding rows. -/
def dot (xs ys : List ℚ) : ℚ := (List.zipWith (· * ·) xs ys).sum

/-- One document's similarity matrix `d @ q.T`: entry `(j, k)` is the dot
product of document token `j` with query token `k`. -/
def matmulT (drows qrows : List (List ℚ)) : List (List ℚ) :=
  drows.map (fun drow => qrows.map (fun qrow => dot drow qrow))

/-- The in-place masking step `scores_padded[D_padding] = -9999` of
`colbert_score_reduce`: every similarity row whose document position is
mask-false is overwritten with the sentinel `-9999`. The result is the
post-call state of the caller's `scores_padded` tensor. -/
def maskScores (scores_padded : Tensor3) (D_mask : List (List Bool)) : Tensor3 :=
  List.zipWith
    (fun docScores docMask =>
      List.zipWith
        (fun row (b : Bool) => if b then row else row.map (fun _ => (-9999 : ℚ)))
        docScores docMask)
    scores_padded D_mask

/-- `colbert_score_reduce(scores_padded, D_mask)`: mask padded positions
to `-9999`, take the maximum over the document-token axis (`max(1)`), and
sum over the query-token axis (`sum(-1)`). -/
def colbert_score_reduce (scores_padded : Tensor3) (D_mask : List (List Bool)) : List ℚ :=
  (maskScores scores_padded D_mask).map (fun doc => (maxDim0 doc).sum)

/-- torch's broadcasting of the batched matrix product: a size-1 query
batch is compared against every document, otherwise queries are aligned
with documents one to one. -/
def broadcastQ (Q : Tensor3) (n : ℕ) : Tensor3 :=
  if Q.length = 1 then List.replicate n (Q.getD 0 []) else Q

/-- `colbert_score(Q, D_padded, D_mask)`: batched `D_padded @ Q.permute(0,2,1)`
(with the size-1 query batch broadcast against all documents) followed by
`colbert_score_reduce`. The source asserts `Q.size(0) in [1, D_padded.size(0)]`;
theorems about this function carry that hypothesis. -/
def colbert_score (Q D_padded : Tensor3) (D_mask : List (List Bool)) : List ℚ :=
  colbert_score_reduce (List.zipWith matmulT D_padded (broadcastQ Q D_padded.length)) D_mask

/-- The query matrix scored against document `i`: the single query if the
query batch has size 1 (broadcast), the aligned query otherwise. -/
def alignedQuery (Q : Tensor3) (i : ℕ) : List (List ℚ) :=
  if Q.length = 1 then Q.getD 0 [] else Q.getD i []

/-- Column `k` of one document's masked similarity matrix, written as a
zip over the document rows and the mask. -/
theorem masked_matmul_column (Drows : List (List ℚ)) (Mrow : List Bool)
    (q : List (List ℚ)) (k : ℕ) (hk : k < q.length) :
    ((List.zipWith
        (fun row (b : Bool) => if b then row else row.map (fun _ => (-9999 : ℚ)))
        (matmulT Drows q) Mrow).map (fun r => r.getD k 0)) =
      List.zipWith (fun drow (b : Bool) => if b then dot drow (q.getD k []) else -9999)
        Drows Mrow := by
  induction Drows generalizing Mrow with
  | nil => simp [matmulT]
  | cons d ds ih =>
    cases Mrow with
    | nil => simp [matmulT]
    | cons b bs =>
      simp only [matmulT, List.map_cons, List.zipWith_cons_cons] at ih ⊢
      rw [← ih bs]
      congr 1
      cases b with
      | true =>
        simp only [if_pos rfl]
        exact getD_map (fun qrow => dot d qrow) q k [] 0 hk
      | false =>
        have h1 := getD_map (fun _ => (-9999 : ℚ)) (q.map (fun qrow => dot d qrow)) k 0 0
          (by simpa using hk)
        simpa using h1

theorem listMax_const {l : List ℚ} {c : ℚ} (hne : l ≠ [])
    (hall : ∀ x ∈ l, x = c) : listMax l = c :=
  hall _ (listMax_mem hne)

/-- Every row of a masked similarity matrix keeps the matrix's row length. -/
theorem masked_rows_length (Drows : List (List ℚ)) (Mrow : List Bool)
    (q : List (List ℚ)) :
    ∀ r ∈ List.zipWith
      (fun row (b : Bool) => if b then row else row.map (fun _ => (-9999 : ℚ)))
      (matmulT Drows q) Mrow, r.length = q.length := by
  induction Drows generalizing Mrow with
  | nil => simp [matmulT]
  | cons d ds ih =>
    cases Mrow with
    | nil => simp [matmulT]
    | cons b bs =>
      intro r hr
      simp only [matmulT, List.map_cons, List.zipWith_cons_cons, List.mem_cons] at hr
      rcases hr with h | h
      · subst h; cases b <;> simp
      · exact ih bs r (by simpa [matmulT] using h)

/-- Every entry of a fully mask-false similarity column is the sentinel. -/
theorem zip_mask_all_false (qk : List ℚ) (Di : List (List ℚ)) (Mi : List Bool)
    (hmask : ∀ b ∈ Mi, b = false) :
    ∀ x ∈ List.zipWith
      (fun drow (b : Bool) => if b then dot drow qk else -9999) Di Mi,
      x = (-9999 : ℚ) := by
  induction Di generalizing Mi with
  | nil => simp
  | cons d ds ih =>
    cases Mi with
    | nil => simp
    | cons b bs =>
      intro x hx
      have hb : b = false := hmask b (List.mem_cons_self b bs)
      subst hb
      simp only [List.zipWith_cons_cons, List.mem_cons] at hx
      rcases hx with h | h
      · simpa using h
      · exact ih bs (fun b' hb' => hmask b' (List.mem_cons_of_mem _ hb')) x h

theorem sum_map_const {α : Type} (l : List α) (c : ℚ) :
    (l.map (fun _ => c)).sum = l.length * c := by
  induction l with
  | nil => simp
  | cons x xs ih => simp [ih]; ring

theorem broadcastQ_length (Q : Tensor3) (n : ℕ)
    (hQ : Q.length = 1 ∨ Q.length = n) : (broadcastQ Q n).length = n := by
  rw [broadcastQ]
  by_cases h1 : Q.length = 1
  · rw [if_pos h1]; simp
  · rw [if_neg h1]
    rcases hQ with h | h
    · exact absurd h h1
    · exact h

theorem broadcastQ_getD (Q : Tensor3) (n i : ℕ) (hi : i < n) :
    (broadcastQ Q n).getD i [] = alignedQuery Q i := by
  rw [broadcastQ, alignedQuery]
  by_cases h1 : Q.length = 1
  · simp [h1, List.getD_eq_getElem?_getD, List.getElem?_replicate, hi]
  · simp [h1]

/-- Entry `i` of `colbert_score` as one closed formula. -/
theorem colbert_score_getD (Q D : Tensor3) (M : List (List Bool)) (i : ℕ)
    (hQ : Q.length = 1 ∨ Q.length = D.length)
    (hDM : D.length = M.length)
    (hi : i < D.length)
    (hlen : (D.getD i []).length = (M.getD i []).length)
    (hpos : 0 < (M.getD i []).length) :
    (colbert_score Q D M).getD i 0 =
      ((alignedQuery Q i).map (fun qk =>
        listMax (List.zipWith
          (fun drow (b : Bool) => if b then dot drow qk else -9999)
          (D.getD i []) (M.getD i [])))).sum := by
  classical
  have hQblen : (broadcastQ Q D.length).length = D.length := broadcastQ_length Q D.length hQ
  have hscores : (List.zipWith matmulT D (broadcastQ Q D.length)).length = D.length := by
    rw [List.length_zipWith, hQblen]; simp
  have hmasked :
      (maskScores (List.zipWith matmulT D (broadcastQ Q D.length)) M).length = D.length := by
    rw [maskScores, List.length_zipWith, hscores, ← hDM]; simp
  rw [colbert_score, colbert_score_reduce]
  rw [getD_map (fun doc => (maxDim0 doc).sum) _ i [] 0 (by rw [hmasked]; exact hi)]
  rw [maskScores,
    getD_zipWith _ (List.zipWith matmulT D (broadcastQ Q D.length)) M i [] [] []
      (by rw [hscores]; exact hi) (by rw [← hDM]; exact hi),
    getD_zipWith matmulT D (broadcastQ Q D.length) i [] [] [] hi
      (by rw [hQblen]; exact hi),
    broadcastQ_getD Q D.length i hi]
  have hne : List.zipWith
      (fun row (b : Bool) => if b then row else row.map (fun _ => (-9999 : ℚ)))
      (matmulT (D.getD i []) (alignedQuery Q i)) (M.getD i []) ≠ [] := by
    rw [← List.length_pos_iff_ne_nil, List.length_zipWith, matmulT, List.length_map, hlen,
      min_self]
    exact hpos
  rw [maxDim0_eq _ (alignedQuery Q i).length hne
    (masked_rows_length (D.getD i []) (M.getD i []) (alignedQuery Q i))]
  conv_rhs => rw [eq_range_map_getD (alignedQuery Q i) []]
  rw [List.map_map]
  congr 1
  apply List.map_congr_left
  intro k hk
  have hk' : k < (alignedQuery Q i).length := List.mem_range.mp hk
  simp only [Function.comp]
  rw [masked_matmul_column (D.getD i []) (M.getD i []) (alignedQuery Q i) k hk']

/-- CLAIM C1: for `Q` of batch size 1 or `N`, padded documents `D` and
mask `M`, the late-interaction score of document `i` is the sum over the
query tokens of the maximum over that document's token positions of the
dot-product similarity, where mask-false positions are first replaced by
the sentinel `-9999`; a fully masked document scores `q_len * -9999`. -/
theorem flmr_C1 (Q D : Tensor3) (M : List (List Bool))
    (hQ : Q.length = 1 ∨ Q.length = D.length)
    (hDM : D.length = M.length)
    (hlen : ∀ i, i < D.length → (D.getD i []).length = (M.getD i []).length)
    (hpos : ∀ i, i < D.length → 0 < (M.getD i []).length) :
    (colbert_score Q D M).length = D.length ∧
    (∀ i, i < D.length →
      (colbert_score Q D M).getD i 0 =
        ((alignedQuery Q i).map (fun qk =>
          listMax (List.zipWith
            (fun drow (b : Bool) => if b then dot drow qk else -9999)
            (D.getD i []) (M.getD i [])))).sum) ∧
    (∀ i, i < D.length → (∀ b ∈ M.getD i [], b = false) →
      (colbert_score Q D M).getD i 0 = (alignedQuery Q i).length * (-9999)) := by
  classical
  have hlen' : (colbert_score Q D M).length = D.length := by
    rw [colbert_score]
    simp only [colbert_score_reduce, maskScores]
    rw [List.length_map, List.length_zipWith, List.length_zipWith,
      broadcastQ_length Q D.length hQ, ← hDM]
    simp
  refine ⟨hlen', fun i hi => colbert_score_getD Q D M i hQ hDM hi (hlen i hi) (hpos i hi),
    fun i hi hmask => ?_⟩
  rw [colbert_score_getD Q D M i hQ hDM hi (hlen i hi) (hpos i hi)]
  have hsummand : ∀ qk ∈ alignedQuery Q i,
      listMax (List.zipWith
        (fun drow (b : Bool) => if b then dot drow qk else -9999)
        (D.getD i []) (M.getD i [])) = (-9999 : ℚ) := by
    intro qk _
    apply listMax_const
    · rw [← List.length_pos_iff_ne_nil, List.length_zipWith, hlen i hi, min_self]
      exact hpos i hi
    · exact zip_mask_all_false qk (D.getD i []) (M.getD i []) hmask
  rw [List.map_congr_left hsummand]
  exact sum_map_const (alignedQuery Q i) (-9999)

/-- Witness for C1: the theorem applied to one query of one token against
two documents, the second fully masked. -/
theorem flmr_C1_witness :
    (([[[1]]] : Tensor3).length = 1 ∨
      ([[[1]]] : Tensor3).length = ([[[2], [3]], [[4], [5]]] : Tensor3).length) ∧
    ((colbert_score [[[1]]] [[[2], [3]], [[4], [5]]]
        [[true, false], [false, false]]).length =
      ([[[2], [3]], [[4], [5]]] : Tensor3).length ∧
    (∀ i, i < ([[[2], [3]], [[4], [5]]] : Tensor3).length →
      (colbert_score [[[1]]] [[[2], [3]], [[4], [5]]]
          [[true, false], [false, false]]).getD i 0 =
        ((alignedQuery [[[1]]] i).map (fun qk =>
          listMax (List.zipWith
            (fun drow (b : Bool) => if b then dot drow qk else -9999)
            (([[[2], [3]], [[4], [5]]] : Tensor3).getD i [])
            (([[true, false], [false, false]] : List (List Bool)).getD i [])))).sum) ∧
    (∀ i, i < ([[[2], [3]], [[4], [5]]] : Tensor3).length →
      (∀ b ∈ ([[true, false], [false, false]] : List (List Bool)).getD i [], b = false) →
      (colbert_score [[[1]]] [[[2], [3]], [[4], [5]]]
          [[true, false], [false, false]]).getD i 0 =
        (alignedQuery [[[1]]] i).length * (-9999))) :=
  ⟨by decide,
   flmr_C1 [[[1]]] [[[2], [3]], [[4], [5]]] [[true, false], [false, false]]
     (by decide) (by decide) (by decide) (by decide)⟩

/-- CLAIM C10: `colbert_score_reduce` overwrites the caller's similarity
tensor in place: in the post-call state (`maskScores`), every mask-false
position holds a row of sentinels `-9999`, every mask-true position is
unchanged, and the returned scores are computed from that mutated tensor. -/
theorem flmr_C10 (S : Tensor3) (M : List (List Bool))
    (hSM : S.length = M.length)
    (hlen : ∀ i, i < S.length → (S.getD i []).length = (M.getD i []).length) :
    (maskScores S M).length = S.length ∧
    (∀ i, i < S.length → ((maskScores S M).getD i []).length = (S.getD i []).length) ∧
    (∀ i j, i < S.length → j < (S.getD i []).length →
      ((M.getD i []).getD j false = true →
        ((maskScores S M).getD i []).getD j [] = (S.getD i []).getD j []) ∧
      ((M.getD i []).getD j false = false →
        ((maskScores S M).getD i []).getD j [] =
          ((S.getD i []).getD j []).map (fun _ => (-9999 : ℚ)))) ∧
    colbert_score_reduce S M = (maskScores S M).map (fun doc => (maxDim0 doc).sum) := by
  have hmlen : (maskScores S M).length = S.length := by
    rw [maskScores, List.length_zipWith, ← hSM]; simp
  have hrow : ∀ i, i < S.length →
      (maskScores S M).getD i [] =
        List.zipWith
          (fun row (b : Bool) => if b then row else row.map (fun _ => (-9999 : ℚ)))
          (S.getD i []) (M.getD i []) := by
    intro i hi
    rw [maskScores, getD_zipWith _ S M i [] [] [] hi (by omega)]
  refine ⟨hmlen, ?_, ?_, rfl⟩
  · intro i hi
    rw [hrow i hi, List.length_zipWith, hlen i hi, min_self]
  · intro i j hi hj
    rw [hrow i hi,
      getD_zipWith _ (S.getD i []) (M.getD i []) j [] false [] hj
        (by rw [← hlen i hi]; exact hj)]
    constructor
    · intro hb; rw [hb]; simp
    · intro hb; rw [hb]; simp

/-- Witness for C10 at a concrete similarity tensor and mask. -/
theorem flmr_C10_witness :
    (([[[1, 2], [3, 4]]] : Tensor3).length =
      ([[true, false]] : List (List Bool)).length) ∧
    ((maskScores [[[1, 2], [3, 4]]] [[true, false]]).length = 1 ∧
    (∀ i, i < ([[[1, 2], [3, 4]]] : Tensor3).length →
      ((maskScores [[[1, 2], [3, 4]]] [[true, false]]).getD i []).length =
        (([[[1, 2], [3, 4]]] : Tensor3).getD i []).length) ∧
    (∀ i j, i < ([[[1, 2], [3, 4]]] : Tensor3).length →
      j < (([[[1, 2], [3, 4]]] : Tensor3).getD i []).length →
      ((([[true, false]] : List (List Bool)).getD i []).getD j false = true →
        ((maskScores [[[1, 2], [3, 4]]] [[true, false]]).getD i []).getD j [] =
          (([[[1, 2], [3, 4]]] : Tensor3).getD i []).getD j []) ∧
      ((([[true, false]] : List (List Bool)).getD i []).getD j false = false →
        ((maskScores [[[1, 2], [3, 4]]] [[true, false]]).getD i []).getD j [] =
          ((([[[1, 2], [3, 4]]] : Tensor3).getD i []).getD j []).map
            (fun _ => (-9999 : ℚ)))) ∧
    colbert_score_reduce [[[1, 2], [3, 4]]] [[true, false]] =
      (maskScores [[[1, 2], [3, 4]]] [[true, false]]).map
        (fun doc => (maxDim0 doc).sum)) := by
  refine ⟨by decide, ?_⟩
  have h := flmr_C10 [[[1, 2], [3, 4]]] [[true, false]] (by decide) (by decide)
  simpa using h

/-! ### Packed-representation scoring (`colbert_score_packed`) -/

/-- Modelled from the spec: the compiled `segmented_maxsim.cpp` torch
extension loaded by `try_load_torch_extensions` is a file of this
repository that is not under `src/`. The spec describes it as a
length-aware segmented-max routine: the packed score matrix
`(total_tokens, q_len)` is split into per-document segments according to
`D_lengths`, the maximum over each segment is taken per query token
(MaxSim), and the maxima are summed per document. An empty segment
contributes an empty maximum (score 0); zero-length documents are
excluded by the theorems below. -/
def segmented_maxsim (scores : List (List ℚ)) (D_lengths : List ℕ) : List ℚ :=
  (splitSegs scores D_lengths).map (fun seg => (maxDim0 seg).sum)

/-- `colbert_score_packed(Q, D_packed, D_lengths)` on the default CPU path
(`use_gpu = False` and `config.interaction = "colbert"`): squeeze the
single query, compute `D_packed @ Q.T`, and reduce with the segmented-max
routine. -/
def colbert_score_packed (Q : Tensor3) (D_packed : List (List ℚ))
    (D_lengths : List ℕ) : List ℚ :=
  segmented_maxsim (matmulT D_packed (Q.getD 0 [])) D_lengths

/-- The packed representation of a padded document tensor: for each
document, only the mask-true rows are kept, concatenated across documents. -/
def packRows (D : Tensor3) (M : List (List Bool)) : List (List ℚ) :=
  (List.zipWith (fun d m => ((d.zip m).filter (fun p => p.2)).map Prod.fst) D M).flatten

/-- Per-document valid-token lengths of a boolean mask. -/
def packLengths (M : List (List Bool)) : List ℕ :=
  M.map (fun m => (m.filter id).length)

/-- Counterexample to C4 as stated: one document whose only valid token
has similarity `-10000 < -9999` and one masked padding position. The
padded path takes the maximum with the sentinel written over the padded
position and returns `-9999`; the packed path never sees the sentinel and
returns `-10000`. -/
theorem flmr_C4_counterexample :
    colbert_score [[[1]]] [[[-10000], [0]]] [[true, false]] ≠
      colbert_score_packed [[[1]]]
        (packRows [[[-10000], [0]]] [[true, false]])
        (packLengths [[true, false]]) := by
  norm_num [colbert_score, colbert_score_packed, colbert_score_reduce, packRows,
    packLengths, segmented_maxsim, splitSegs, maskScores, broadcastQ, matmulT, dot,
    maxDim0, listMax]

theorem filter_zip_length {α : Type} (d : List α) (m : List Bool)
    (h : d.length = m.length) :
    ((d.zip m).filter (fun p => p.2)).length = (m.filter id).length := by
  induction d generalizing m with
  | nil =>
    cases m with
    | nil => simp
    | cons b bs => simp at h
  | cons x xs ih =>
    cases m with
    | nil => simp at h
    | cons b bs =>
      simp only [List.zip_cons_cons, List.filter_cons]
      cases b <;> simp [ih bs (by simpa using h)]

theorem matmulT_row_length (rows q : List (List ℚ)) :
    ∀ r ∈ matmulT rows q, r.length = q.length := by
  intro r hr
  rcases List.mem_map.mp hr with ⟨drow, _, heq⟩
  rw [← heq]
  simp

theorem matmulT_column (rows q : List (List ℚ)) (k : ℕ) (hk : k < q.length) :
    (matmulT rows q).map (fun r => r.getD k 0) =
      rows.map (fun r => dot r (q.getD k [])) := by
  rw [matmulT, List.map_map]
  apply List.map_congr_left
  intro r _
  simp only [Function.comp]
  exact getD_map (fun qrow => dot r qrow) q k [] 0 hk

theorem masked_entry_of_pair (qk : List ℚ) (d : List (List ℚ)) (m : List Bool)
    (r : List ℚ) (h : (r, true) ∈ d.zip m) :
    dot r qk ∈ List.zipWith
      (fun drow (b : Bool) => if b then dot drow qk else -9999) d m := by
  induction d generalizing m with
  | nil => simp at h
  | cons x xs ih =>
    cases m with
    | nil => simp at h
    | cons b bs =>
      simp only [List.zip_cons_cons, List.mem_cons] at h
      simp only [List.zipWith_cons_cons, List.mem_cons]
      rcases h with h1 | h1
      · have hx : r = x ∧ true = b := by
          constructor <;> [exact congrArg Prod.fst h1; exact congrArg Prod.snd h1]
        left
        rw [← hx.2, ← hx.1]
        simp
      · right
        exact ih bs h1

theorem masked_entries (qk : List ℚ) (d : List (List ℚ)) (m : List Bool) :
    ∀ x ∈ List.zipWith
      (fun drow (b : Bool) => if b then dot drow qk else -9999) d m,
      x = (-9999 : ℚ) ∨ ∃ r, (r, true) ∈ d.zip m ∧ x = dot r qk := by
  induction d generalizing m with
  | nil => simp
  | cons x xs ih =>
    cases m with
    | nil => simp
    | cons b bs =>
      intro y hy
      simp only [List.zipWith_cons_cons, List.mem_cons] at hy
      rcases hy with h | h
      · cases b with
        | true =>
          right
          refine ⟨x, by simp, by simpa using h⟩
        | false =>
          left
          simpa using h
      · rcases ih bs y h with h1 | ⟨r, hr, hx⟩
        · exact Or.inl h1
        · exact Or.inr ⟨r, by simp [List.zip_cons_cons]; right; exact hr, hx⟩

/-- The key MaxSim identity: with at least one valid position and all
similarities at or above the sentinel, the masked column maximum equals
the maximum over only the valid (filtered) positions. -/
theorem listMax_masked_eq_filtered (d : List (List ℚ)) (m : List Bool) (qk : List ℚ)
    (hlen : d.length = m.length) (hvalid : true ∈ m)
    (hge : ∀ drow ∈ d, (-9999 : ℚ) ≤ dot drow qk) :
    listMax (List.zipWith
      (fun drow (b : Bool) => if b then dot drow qk else -9999) d m) =
    listMax ((((d.zip m).filter (fun p => p.2)).map Prod.fst).map
      (fun r => dot r qk)) := by
  classical
  set A := List.zipWith (fun drow (b : Bool) => if b then dot drow qk else -9999) d m
    with hA
  set B := (((d.zip m).filter (fun p => p.2)).map Prod.fst).map (fun r => dot r qk)
    with hB
  have hmne : m ≠ [] := List.ne_nil_of_mem hvalid
  have hAne : A ≠ [] := by
    rw [hA, ← List.length_pos_iff_ne_nil, List.length_zipWith, hlen, min_self]
    rw [List.length_pos_iff_ne_nil]
    exact hmne
  have hpair : ∃ r, (r, true) ∈ d.zip m := by
    rcases List.mem_iff_getElem.mp hvalid with ⟨j, hj, hmj⟩
    have hjd : j < d.length := by omega
    have hjz : j < (d.zip m).length := by
      rw [List.length_zip]
      omega
    refine ⟨d[j], ?_⟩
    have hz : (d.zip m)[j] = (d[j], m[j]) := List.getElem_zip
    rw [← hmj, ← hz]
    exact List.getElem_mem _
  have hBmem : ∀ r, (r, true) ∈ d.zip m → dot r qk ∈ B := by
    intro r hr
    rw [hB]
    have hf : (r, true) ∈ (d.zip m).filter (fun p => p.2) :=
      List.mem_filter.mpr ⟨hr, rfl⟩
    have hm2 : r ∈ ((d.zip m).filter (fun p => p.2)).map Prod.fst :=
      List.mem_map_of_mem Prod.fst hf
    exact List.mem_map_of_mem _ hm2
  have hBne : B ≠ [] := by
    rcases hpair with ⟨r, hr⟩
    exact List.ne_nil_of_mem (hBmem r hr)
  have hBsubA : ∀ x ∈ B, x ∈ A := by
    intro x hx
    rw [hB] at hx
    rcases List.mem_map.mp hx with ⟨r, hr, hxr⟩
    rcases List.mem_map.mp hr with ⟨p, hp, hpr⟩
    have hpz := (List.mem_filter.mp hp).1
    have hpt : p.2 = true := by simpa using (List.mem_filter.mp hp).2
    have : (r, true) ∈ d.zip m := by
      rw [← hpr, ← hpt]
      simpa using hpz
    rw [← hxr]
    exact masked_entry_of_pair qk d m r this
  have hBge : ∀ x ∈ B, (-9999 : ℚ) ≤ x := by
    intro x hx
    rw [hB] at hx
    rcases List.mem_map.mp hx with ⟨r, hr, hxr⟩
    rcases List.mem_map.mp hr with ⟨p, hp, hpr⟩
    have hpz := (List.mem_filter.mp hp).1
    have hmemd : p.1 ∈ d := by
      have := List.of_mem_zip (by simpa using hpz)
      exact this.1
    rw [← hxr, ← hpr]
    exact hge p.1 hmemd
  rcases masked_entries qk d m (listMax A) (by rw [hA] at *; exact listMax_mem hAne)
    with hcase | ⟨r, hr, hx⟩
  · have h1 : listMax B ≤ (-9999 : ℚ) := by
      have hle := le_listMax (hBsubA (listMax B) (listMax_mem hBne))
      rwa [hcase] at hle
    have h2 : (-9999 : ℚ) ≤ listMax B := hBge (listMax B) (listMax_mem hBne)
    rw [hcase]
    exact (le_antisymm h1 h2).symm
  · have hmemB : listMax A ∈ B := hx ▸ hBmem r hr
    have h1 : listMax A ≤ listMax B := le_listMax hmemB
    have h2 : listMax B ≤ listMax A := le_listMax (hBsubA (listMax B) (listMax_mem hBne))
    exact le_antisymm h1 h2

/-- Per-document agreement of the packed and the padded reductions. -/
theorem packed_doc_sum (d : List (List ℚ)) (m : List Bool) (q : List (List ℚ))
    (hlen : d.length = m.length) (hvalid : true ∈ m)
    (hge : ∀ drow ∈ d, ∀ qk ∈ q, (-9999 : ℚ) ≤ dot drow qk) :
    (maxDim0 (matmulT (((d.zip m).filter (fun p => p.2)).map Prod.fst) q)).sum =
      (maxDim0 (List.zipWith
        (fun row (b : Bool) => if b then row else row.map (fun _ => (-9999 : ℚ)))
        (matmulT d q) m)).sum := by
  classical
  have hmne : m ≠ [] := List.ne_nil_of_mem hvalid
  have hpackne : ((d.zip m).filter (fun p => p.2)).map Prod.fst ≠ [] := by
    rw [← List.length_pos_iff_ne_nil, List.length_map,
      filter_zip_length d m hlen, List.length_pos_iff_ne_nil]
    intro hempty
    have : true ∈ m.filter id := List.mem_filter.mpr ⟨hvalid, rfl⟩
    rw [hempty] at this
    simp at this
  have hLne : matmulT (((d.zip m).filter (fun p => p.2)).map Prod.fst) q ≠ [] := by
    rw [matmulT, ← List.length_pos_iff_ne_nil, List.length_map,
      List.length_pos_iff_ne_nil]
    exact hpackne
  have hRne : List.zipWith
      (fun row (b : Bool) => if b then row else row.map (fun _ => (-9999 : ℚ)))
      (matmulT d q) m ≠ [] := by
    rw [← List.length_pos_iff_ne_nil, List.length_zipWith, matmulT, List.length_map,
      hlen, min_self, List.length_pos_iff_ne_nil]
    exact hmne
  rw [maxDim0_eq _ q.length hLne (matmulT_row_length _ q),
    maxDim0_eq _ q.length hRne (masked_rows_length d m q)]
  congr 1
  apply List.map_congr_left
  intro k hk
  have hk' : k < q.length := List.mem_range.mp hk
  rw [matmulT_column _ q k hk', masked_matmul_column d m q k hk',
    listMax_masked_eq_filtered d m (q.getD k []) hlen hvalid
      (fun drow hd => hge drow hd (q.getD k [])
        (by rw [List.getD_eq_getElem _ _ hk']; exact List.getElem_mem _))]

/-- CLAIM C4, amended: the packed path agrees exactly with the padded
path, provided every document has at least one mask-true position and no
similarity value lies below the sentinel `-9999` (both guaranteed for
real, L2-normalised embeddings with non-empty documents; the
counterexample above forces exactly these two side conditions). -/
theorem flmr_C4 (Q D : Tensor3) (M : List (List Bool))
    (hQ1 : Q.length = 1)
    (hDM : D.length = M.length)
    (hlen : ∀ i, i < D.length → (D.getD i []).length = (M.getD i []).length)
    (hvalid : ∀ i, i < D.length → true ∈ M.getD i [])
    (hge : ∀ i, i < D.length → ∀ drow ∈ D.getD i [], ∀ qk ∈ Q.getD 0 [],
      (-9999 : ℚ) ≤ dot drow qk) :
    colbert_score_packed Q (packRows D M) (packLengths M) = colbert_score Q D M := by
  classical
  set q := Q.getD 0 [] with hq
  have h1 : matmulT (packRows D M) q =
      (List.zipWith
        (fun d m => matmulT (((d.zip m).filter (fun p => p.2)).map Prod.fst) q)
        D M).flatten := by
    rw [packRows, matmulT, List.map_flatten, List.map_zipWith]
    rfl
  have h2 : packLengths M =
      (List.zipWith
        (fun d m => matmulT (((d.zip m).filter (fun p => p.2)).map Prod.fst) q)
        D M).map List.length := by
    apply List.ext_getElem
    · rw [packLengths, List.length_map, List.length_map, List.length_zipWith, ← hDM,
        min_self]
    · intro i hi1 hi2
      rw [packLengths] at hi1
      simp only [List.length_map] at hi1
      have hiD : i < D.length := by
        rw [List.length_map, List.length_zipWith] at hi2
        omega
      simp only [packLengths, List.getElem_map, List.getElem_zipWith, matmulT,
        List.length_map]
      exact (filter_zip_length D[i] M[i]
        (by
          have := hlen i hiD
          rwa [List.getD_eq_getElem _ _ hiD, List.getD_eq_getElem _ _ (by omega)]
            at this)).symm
  rw [colbert_score_packed, ← hq, h1, h2, segmented_maxsim, splitSegs_flatten]
  rw [colbert_score, colbert_score_reduce]
  simp only [maskScores]
  apply List.ext_getElem
  · rw [List.length_map, List.length_map, List.length_zipWith,
      List.length_zipWith, List.length_zipWith, broadcastQ_length Q D.length (Or.inl hQ1),
      ← hDM]
    simp
  · intro i hi1 hi2
    have hiD : i < D.length := by
      rw [List.length_map, List.length_zipWith] at hi1
      omega
    have hiM : i < M.length := by omega
    simp only [List.getElem_map, List.getElem_zipWith]
    have hbql : i < (broadcastQ Q D.length).length := by
      rw [broadcastQ_length Q D.length (Or.inl hQ1)]
      exact hiD
    have hbq : (broadcastQ Q D.length)[i] = q := by
      rw [← List.getD_eq_getElem _ [] _, broadcastQ_getD Q D.length i hiD, alignedQuery,
        if_pos hQ1, hq]
    rw [hbq]
    exact packed_doc_sum D[i] M[i] q
      (by
        have := hlen i hiD
        rwa [List.getD_eq_getElem _ _ hiD, List.getD_eq_getElem _ _ hiM] at this)
      (by
        have := hvalid i hiD
        rwa [List.getD_eq_getElem _ _ hiM] at this)
      (by
        have := hge i hiD
        rwa [List.getD_eq_getElem _ _ hiD, hq] at this)

/-- Witness for the amended C4 at a one-document, one-token input. -/
theorem flmr_C4_witness :
    (([[[1]]] : Tensor3).length = 1 ∧
      (∀ i, i < ([[[1]]] : Tensor3).length →
        true ∈ ([[true]] : List (List Bool)).getD i [])) ∧
    colbert_score_packed [[[1]]] (packRows [[[1]]] [[true]]) (packLengths [[true]]) =
      colbert_score [[[1]]] [[[1]]] [[true]] :=
  ⟨⟨rfl, by decide⟩,
   flmr_C4 [[[1]]] [[[1]]] [[true]] rfl rfl (by decide) (by decide)
     (by
       intro i hi drow hd qk hq
       have hi0 : i = 0 := by simpa using hi
       subst hi0
       simp at hd hq
       subst hd
       subst hq
       norm_num [dot])⟩

/-! ### In-batch-negative loss (`compute_ib_loss_new`) -/

/-- `D_mask.repeat(Q.size(0), 1, 1)`: the document mask tiled once per
query along the batch axis. -/
def repeatMask (M : List (List Bool)) (n : ℕ) : List (List Bool) :=
  (List.replicate n M).flatten

/-- The flattened cross-similarity reduction of `compute_ib_loss_new`:
`(D.unsqueeze(0) @ Q.permute(0,2,1).unsqueeze(1)).flatten(0,1)` (query-major
order) passed through `colbert_score_reduce` with the tiled mask. -/
def ib_scores_flat (Q D : Tensor3) (M : List (List Bool)) : List ℚ :=
  colbert_score_reduce
    ((Q.map (fun qmat => D.map (fun dmat => matmulT dmat qmat))).flatten)
    (repeatMask M Q.length)

/-- `scores.reshape(Q.size(0), -1)`: the in-batch score matrix, one row
per query. -/
def ib_scores_matrix (Q D : Tensor3) (M : List (List Bool)) : List (List ℚ) :=
  chunksOf ((ib_scores_flat Q D M).length / Q.length) (ib_scores_flat Q D M)

/-- `torch.argmax` over one row: index of the first occurrence of the
row's maximum. -/
def argmaxIdx (l : List ℚ) : ℕ :=
  l.findIdx (fun v => decide (v = listMax l))

/-- The in-batch labels: a zero matrix of shape
`(batch_size, batch_size_with_pos_and_neg)` gets a `1` written at column
`step * i` of row `i`, then `argmax(dim=1)` extracts one column index per
row. -/
def ib_labels (batch_size n step : ℕ) : List ℕ :=
  (List.range batch_size).map
    (fun i => argmaxIdx ((List.replicate n (0 : ℚ)).set (step * i) 1))

/-- `compute_ib_loss_new(Q, D, D_mask)`: the cross-entropy loss function
(`torch.nn.CrossEntropyLoss`, external library code, passed as `lossFn`)
applied to the in-batch score matrix and the in-batch labels, with
`step = D.size(0) // Q.size(0)`. -/
def compute_ib_loss_new (lossFn : List (List ℚ) → List ℕ → ℚ)
    (Q D : Tensor3) (M : List (List Bool)) : ℚ :=
  lossFn (ib_scores_matrix Q D M)
    (ib_labels Q.length D.length (D.length / Q.length))

theorem length_flatten_replicate {α : Type} (n : ℕ) (l : List α) :
    (List.replicate n l).flatten.length = n * l.length := by
  induction n with
  | zero => simp
  | succ m ih => simp [List.replicate_succ, ih, Nat.succ_mul, Nat.add_comm]

theorem length_flatten_map_const {α β : Type} (l : List α) (g : α → List β) (n : ℕ)
    (h : ∀ a ∈ l, (g a).length = n) :
    (l.map g).flatten.length = l.length * n := by
  induction l with
  | nil => simp
  | cons x xs ih =>
    simp only [List.map_cons, List.flatten_cons, List.length_append, List.length_cons]
    rw [h x (List.mem_cons_self x xs), ih (fun a ha => h a (List.mem_cons_of_mem x ha))]
    ring

theorem colbert_score_reduce_length (S : Tensor3) (M : List (List Bool)) :
    (colbert_score_reduce S M).length = min S.length M.length := by
  simp [colbert_score_reduce, maskScores]

/-- `chunksOf` on a list of length `B * n` yields `B` chunks of length `n`. -/
theorem chunksOf_full {α : Type} (n B : ℕ) (hn : 0 < n) (l : List α)
    (hl : l.length = B * n) :
    (chunksOf n l).length = B ∧ ∀ r ∈ chunksOf n l, r.length = n := by
  induction B generalizing l with
  | zero =>
    have : l = [] := List.eq_nil_of_length_eq_zero (by omega)
    subst this
    simp [chunksOf]
  | succ m ih =>
    have hpos : 0 < l.length := by
      rw [hl]
      exact Nat.mul_pos (Nat.succ_pos m) hn
    cases l with
    | nil => simp at hpos
    | cons x xs =>
      cases n with
      | zero => omega
      | succ t =>
        rw [chunksOf]
        have hexpand : (m + 1) * (t + 1) = m * (t + 1) + (t + 1) := by ring
        have hlen2 : ((x :: xs).drop (t + 1)).length = m * (t + 1) := by
          rw [List.length_drop, hl, hexpand]
          omega
        have ihres := ih ((x :: xs).drop (t + 1)) hlen2
        constructor
        · rw [List.length_cons, ihres.1]
        · intro r hr
          rcases List.mem_cons.mp hr with h1 | h1
          · subst h1
            rw [List.length_take, hl, hexpand]
            omega
          · exact ihres.2 r h1

theorem listMax_replicate_set_one (n j : ℕ) (hj : j < n) :
    listMax ((List.replicate n (0 : ℚ)).set j 1) = 1 := by
  have hlen : ((List.replicate n (0 : ℚ)).set j 1).length = n := by simp
  have hmem : (1 : ℚ) ∈ (List.replicate n (0 : ℚ)).set j 1 := by
    rw [List.mem_iff_getElem]
    exact ⟨j, by omega, by rw [List.getElem_set_self]⟩
  have hne : (List.replicate n (0 : ℚ)).set j 1 ≠ [] :=
    List.ne_nil_of_mem hmem
  have hub : ∀ x ∈ (List.replicate n (0 : ℚ)).set j 1, x ≤ 1 := by
    intro x hx
    rcases List.mem_or_eq_of_mem_set hx with h | h
    · rw [List.eq_of_mem_replicate h]; norm_num
    · rw [h]
  exact le_antisymm (hub _ (listMax_mem hne)) (le_listMax hmem)

theorem findIdx_replicate_set_one (n j : ℕ) (hj : j < n) :
    ((List.replicate n (0 : ℚ)).set j 1).findIdx (fun v => decide (v = 1)) = j := by
  induction n generalizing j with
  | zero => omega
  | succ m ih =>
    rw [List.replicate_succ]
    cases j with
    | zero =>
      rw [List.set_cons_zero, List.findIdx_cons]
      have h1 : decide ((1 : ℚ) = 1) = true := by norm_num
      rw [h1, cond_true]
    | succ t =>
      rw [List.set_cons_succ, List.findIdx_cons]
      have h0 : decide ((0 : ℚ) = 1) = false := by norm_num
      rw [h0, cond_false, ih t (by omega)]

theorem argmaxIdx_one_hot (n j : ℕ) (hj : j < n) :
    argmaxIdx ((List.replicate n (0 : ℚ)).set j 1) = j := by
  rw [argmaxIdx, listMax_replicate_set_one n j hj]
  exact findIdx_replicate_set_one n j hj

/-- Counterexample to C3 as stated: for B=2 queries and k=1 negative each
(2 documents per query, 4 total), the label of query 1 computed by
`compute_ib_loss_new` is `1 * (1 + 1) = 2`, not `3`: the claim's "in
particular" vector `[0, 3]` contradicts its own general formula `i*(1+k)`. -/
theorem flmr_C3_counterexample :
    compute_ib_loss_new (fun _ labels => ((labels.getD 1 0 : ℕ) : ℚ))
      [[[1]], [[1]]] [[[1]], [[1]], [[1]], [[1]]]
      [[true], [true], [true], [true]] = 2 ∧ (2 : ℚ) ≠ 3 := by
  constructor
  · rw [compute_ib_loss_new]
    have h2 : ib_labels 2 4 2 =
        [argmaxIdx ((List.replicate 4 (0 : ℚ)).set 0 1),
         argmaxIdx ((List.replicate 4 (0 : ℚ)).set 2 1)] := rfl
    show ((ib_labels 2 4 (4 / 2)).getD 1 0 : ℚ) = 2
    norm_num [h2, argmaxIdx_one_hot 4 0 (by omega), argmaxIdx_one_hot 4 2 (by omega)]
  · norm_num

/-- CLAIM C3, amended: for B queries and B*(1+k) documents the in-batch
loss applies the loss function to a B-by-B*(1+k) score matrix with
correct-match label `i*(1+k)` for query `i`; in particular for B=2 and
k=1 the label vector is `[0, 2]` (the vector `[0, 3]` arises for k=2,
i.e. three documents per query). -/
theorem flmr_C3 (lossFn : List (List ℚ) → List ℕ → ℚ) (Q D : Tensor3)
    (M : List (List Bool)) (B k : ℕ)
    (hB : 0 < B) (hQ : Q.length = B) (hD : D.length = B * (1 + k))
    (hM : M.length = D.length) :
    compute_ib_loss_new lossFn Q D M =
      lossFn (ib_scores_matrix Q D M) ((List.range B).map (fun i => i * (1 + k))) ∧
    (ib_scores_matrix Q D M).length = B ∧
    (∀ row ∈ ib_scores_matrix Q D M, row.length = B * (1 + k)) := by
  have hflatlen :
      ((Q.map (fun qmat => D.map (fun dmat => matmulT dmat qmat))).flatten).length =
        B * (B * (1 + k)) := by
    rw [length_flatten_map_const Q _ (B * (1 + k))
      (fun a _ => by rw [List.length_map, hD]), hQ]
  have hmasklen : (repeatMask M Q.length).length = B * (B * (1 + k)) := by
    rw [repeatMask, length_flatten_replicate, hQ, hM, hD]
  have hreduce : (ib_scores_flat Q D M).length = B * (B * (1 + k)) := by
    rw [ib_scores_flat, colbert_score_reduce_length, hflatlen, hmasklen, min_self]
  have hn : (ib_scores_flat Q D M).length / Q.length = B * (1 + k) := by
    rw [hreduce, hQ]
    exact Nat.mul_div_cancel_left _ hB
  have hmatrix := chunksOf_full (B * (1 + k)) B
    (by positivity) (ib_scores_flat Q D M) hreduce
  have hlab : ib_labels B (B * (1 + k)) (1 + k) =
      (List.range B).map (fun i => i * (1 + k)) := by
    rw [ib_labels]
    apply List.map_congr_left
    intro i hi
    have hiB : i < B := List.mem_range.mp hi
    have hbound : (1 + k) * i < B * (1 + k) := by
      rw [Nat.mul_comm B (1 + k)]
      exact mul_lt_mul_of_pos_left hiB (by omega)
    rw [argmaxIdx_one_hot _ _ hbound]
    exact Nat.mul_comm (1 + k) i
  refine ⟨?_, ?_, ?_⟩
  · rw [compute_ib_loss_new, hQ, hD, Nat.mul_div_cancel_left _ hB, hlab]
  · rw [ib_scores_matrix, hn]
    exact hmatrix.1
  · intro row hrow
    rw [ib_scores_matrix, hn] at hrow
    exact hmatrix.2 row hrow

/-- Witness for C3 at B=2, k=1 (four documents), showing the label vector
`[0, 2]`. -/
theorem flmr_C3_witness :
    (0 < 2 ∧ ([[[1]], [[1]]] : Tensor3).length = 2 ∧
      ([[[1]], [[1]], [[1]], [[1]]] : Tensor3).length = 2 * (1 + 1)) ∧
    (List.range 2).map (fun i => i * (1 + 1)) = [0, 2] ∧
    (compute_ib_loss_new (fun _ _ => 0) [[[1]], [[1]]]
        [[[1]], [[1]], [[1]], [[1]]] [[true], [true], [true], [true]] =
      (fun _ _ => (0 : ℚ))
        (ib_scores_matrix [[[1]], [[1]]] [[[1]], [[1]], [[1]], [[1]]]
          [[true], [true], [true], [true]])
        ((List.range 2).map (fun i => i * (1 + 1))) ∧
    (ib_scores_matrix [[[1]], [[1]]] [[[1]], [[1]], [[1]], [[1]]]
        [[true], [true], [true], [true]]).length = 2 ∧
    (∀ row ∈ ib_scores_matrix [[[1]], [[1]]] [[[1]], [[1]], [[1]], [[1]]]
        [[true], [true], [true], [true]], row.length = 2 * (1 + 1))) :=
  ⟨by decide, by decide,
   flmr_C3 (fun _ _ => 0) [[[1]], [[1]]] [[[1]], [[1]], [[1]], [[1]]]
     [[true], [true], [true], [true]] 2 1 (by decide) (by decide) (by decide) (by decide)⟩

/-! ### Distributed gather (`gather_tensors_from_other_gpus`) -/

/-- `gather_tensors_from_other_gpus(query_embeddings, item_embeddings, item_mask)`.
The distributed collective layer is external (`torch.distributed`):
`n_nodes` is `get_world_size()`, `rank` is `get_rank()`, and
`allGatherQ/D/M` are the placeholder lists filled by `dist.all_gather`
(one gradient-detached tensor per rank). When the world size is 1 the
function returns its inputs unchanged; otherwise each placeholder list
has the local rank's entry replaced by the local (gradient-bearing)
tensor and the lists are concatenated along the batch axis. -/
def gather_tensors_from_other_gpus {α β γ : Type} (n_nodes rank : ℕ)
    (allGatherQ : List (List α)) (allGatherD : List (List β))
    (allGatherM : List (List γ))
    (query_embeddings : List α) (item_embeddings : List β) (item_mask : List γ) :
    List α × List β × List γ :=
  if n_nodes = 1 then (query_embeddings, item_embeddings, item_mask)
  else
    ((allGatherQ.enum.map
        (fun p => if p.1 ≠ rank then p.2 else query_embeddings)).flatten,
     (allGatherD.enum.map
        (fun p => if p.1 ≠ rank then p.2 else item_embeddings)).flatten,
     (allGatherM.enum.map
        (fun p => if p.1 ≠ rank then p.2 else item_mask)).flatten)

/-- CLAIM C8: with distributed world size 1, the gather step returns its
three inputs unchanged, whatever the rank and whatever the collective
layer would have delivered. -/
theorem flmr_C8 {α β γ : Type} (rank : ℕ)
    (allGatherQ : List (List α)) (allGatherD : List (List β))
    (allGatherM : List (List γ))
    (q : List α) (d : List β) (m : List γ) (n_nodes : ℕ) (h1 : n_nodes = 1) :
    gather_tensors_from_other_gpus n_nodes rank allGatherQ allGatherD allGatherM q d m =
      (q, d, m) := by
  rw [gather_tensors_from_other_gpus, if_pos h1]

/-- Witness for C8 at concrete tensors of rational entries. -/
theorem flmr_C8_witness :
    (1 = 1) ∧
    gather_tensors_from_other_gpus 1 0 [] [] []
      ([[[1, 2]]] : Tensor3) ([[[3]]] : Tensor3) ([[true]] : List (List Bool)) =
      ([[[1, 2]]], [[[3]]], [[true]]) :=
  ⟨rfl, flmr_C8 0 [] [] [] [[[1, 2]]] [[[3]]] [[true]] 1 rfl⟩

/-! ### Query / document encoding (`FLMRModelForRetrieval.query` and `.doc`)

The transformer text encoder plus its linear projection, the CLIP vision
encoder (pooled first-token output), the vision projection MLP, torch's
row-wise L2 normalisation and the half-precision cast are external
collaborators, carried as opaque functions in `DocEnc`. -/

structure DocEnc (π : Type) where
  textEnc : List (List ℕ) → List (List ℕ) → Tensor3
  visionEnc : π → List (List ℚ)
  visionProj : List ℚ → List ℚ
  normalizeRow : List ℚ → List ℚ
  halfCast : ℚ → ℚ
  mappingPrefixLength : ℕ
  dim : ℕ
  skiplist : List ℕ

/-- The `mask` method: token position `x` is kept iff `x` is not in the
skiplist and `x != 0`. -/
def tokenMask (input_ids : List (List ℕ)) (skiplist : List ℕ) : List (List Bool) :=
  input_ids.map (fun d => d.map (fun x => decide (x ∉ skiplist) && decide (x ≠ 0)))

/-- `text_embeddings * mask`: each token row is multiplied by its 0/1
mask value. -/
def applyTokenMask (emb : Tensor3) (m : List (List Bool)) : Tensor3 :=
  List.zipWith
    (fun d md => List.zipWith
      (fun row (b : Bool) => row.map (fun v => v * (if b then 1 else 0))) d md)
    emb m

/-- The Python `keep_dims` argument: `True`, `False`, or `'return_mask'`. -/
inductive KeepDims where
  | kTrue
  | kFalse
  | kReturnMask
deriving DecidableEq

/-- The late-interaction output: a padded 3-D tensor, or (for
`keep_dims=False`) a Python list of per-document variable-length tensors. -/
inductive LateOutput where
  | tensor (t : Tensor3)
  | ragged (l : List (List (List ℚ)))
deriving DecidableEq

structure DocOutput where
  pooler_output : List (List ℚ)
  late_interaction_output : LateOutput
  context_mask : Option (List (List Bool))
deriving DecidableEq

structure QueryOutput where
  pooler_output : List (List ℚ)
  late_interaction_output : Tensor3
deriving DecidableEq

/-- `[d[mask[idx]] for idx, d in enumerate(D)]`: per-document boolean-mask
row selection. -/
def raggedSlices (D : Tensor3) (mask : List (List Bool)) : List (List (List ℚ)) :=
  List.zipWith (fun d md => ((d.zip md).filter (fun p => p.2)).map Prod.fst) D mask

/-- `X[:, 0, :]`. On a 3-D tensor this selects the first sequence position
of every batch row (an `IndexError`, hence `none`, if some row is empty).
On a Python list (the ragged output) tuple indexing raises `TypeError`,
hence always `none`. -/
def sliceFirstToken : LateOutput → Option (List (List ℚ))
  | LateOutput.tensor t => t.mapM List.head?
  | LateOutput.ragged _ => none

/-- The pooled vision vectors: the vision encoder's first-position output
on the pixel tensor when one is given, otherwise the precomputed features. -/
def pooledVision {π : Type} (E : DocEnc π)
    (pixel_values : Option π) (image_features : Option (List (List ℚ))) :
    List (List ℚ) :=
  (pixel_values.map E.visionEnc).getD (image_features.getD [])

/-- The vision path shared by `query` and `doc`: pool, apply the mapping
network and reshape to `(batch, mapping_network_prefix_length, dim)`. -/
def visionPseudoTokens {π : Type} (E : DocEnc π)
    (pixel_values : Option π) (image_features : Option (List (List ℚ))) : Tensor3 :=
  (pooledVision E pixel_values image_features).map
    (fun v => chunksOf E.dim (E.visionProj v))

/-- `FLMRModelForRetrieval.doc`. Fallible steps (the mutual-exclusion
assert on `pixel_values`/`image_features`, use of an unbound
`text_embeddings`/`vision_embeddings`/`D` when a requested modality's
inputs are absent or no modality is requested, and the final
`D[:, 0, :]` slice) return `none`. -/
def doc {π : Type} (E : DocEnc π)
    (input_ids attention_mask : Option (List (List ℕ)))
    (pixel_values : Option π) (image_features : Option (List (List ℚ)))
    (concat_vision concat_text : Bool)
    (keep_dims : KeepDims) (return_mask : Bool) : Option DocOutput :=
  if pixel_values.isSome && image_features.isSome then none
  else
    let textPart : Option (Tensor3 × List (List Bool)) :=
      input_ids.bind fun ids =>
        attention_mask.map fun am =>
          (applyTokenMask (E.textEnc ids am) (tokenMask ids E.skiplist),
           tokenMask ids E.skiplist)
    let visionPart : Option (Tensor3 × List (List Bool)) :=
      if pixel_values.isSome || image_features.isSome then
        some (visionPseudoTokens E pixel_values image_features,
          List.replicate (pooledVision E pixel_values image_features).length
            (List.replicate E.mappingPrefixLength true))
      else none
    let combined : Option (Tensor3 × List (List Bool)) :=
      if concat_vision && concat_text then
        visionPart.bind fun vp =>
          textPart.map fun tp =>
            (List.zipWith (fun a b => a ++ b) vp.1 tp.1,
             List.zipWith (fun a b => a ++ b) tp.2 vp.2)
      else if concat_vision then visionPart
      else if concat_text then textPart
      else none
    combined.bind fun Dm =>
      let D1 := Dm.1.map (fun d => d.map (fun row => (E.normalizeRow row).map E.halfCast))
      let late : LateOutput :=
        if keep_dims = KeepDims.kFalse then LateOutput.ragged (raggedSlices D1 Dm.2)
        else LateOutput.tensor D1
      (sliceFirstToken late).map fun pooler =>
        { pooler_output := pooler,
          late_interaction_output := late,
          context_mask := if return_mask then some Dm.2 else none }

/-- `FLMRModelForRetrieval.query`: like `doc` but with an empty skiplist,
no image mask, no half cast, and the pooler taken before normalisation. -/
def query {π : Type} (E : DocEnc π)
    (input_ids attention_mask : Option (List (List ℕ)))
    (pixel_values : Option π) (image_features : Option (List (List ℚ)))
    (concat_vision concat_text : Bool) : Option QueryOutput :=
  if pixel_values.isSome && image_features.isSome then none
  else
    let textPart : Option Tensor3 :=
      input_ids.bind fun ids =>
        attention_mask.map fun am =>
          applyTokenMask (E.textEnc ids am) (tokenMask ids [])
    let visionPart : Option Tensor3 :=
      if pixel_values.isSome || image_features.isSome then
        some (visionPseudoTokens E pixel_values image_features)
      else none
    let combined : Option Tensor3 :=
      if concat_vision && concat_text then
        visionPart.bind fun v =>
          textPart.map fun t => List.zipWith (fun a b => a ++ b) v t
      else if concat_vision then visionPart
      else if concat_text then textPart
      else none
    combined.bind fun Q0 =>
      (Q0.mapM List.head?).map fun pooler =>
        { pooler_output := pooler,
          late_interaction_output := Q0.map (fun d => d.map E.normalizeRow) }

/-- A concrete encoder instantiation for evaluating the encoding paths:
token `x` embeds to the one-dimensional row `[x]`, the mapping network
produces the two pseudo-token rows `[7]` and `[9]`, normalisation and the
half cast are the identity. -/
def demoEnc : DocEnc Unit where
  textEnc := fun ids _ => ids.map (fun r => r.map (fun x : ℕ => [(x : ℚ)]))
  visionEnc := fun _ => [[3]]
  visionProj := fun _ => [7, 9]
  normalizeRow := id
  halfCast := id
  mappingPrefixLength := 2
  dim := 1
  skiplist := []

/-- CLAIM C2 (failing evaluation): a document-side call with both
modalities concatenates the embedding as `[vision, text]` but the mask as
`[text_mask, image_mask]` (`mask = torch.cat([mask, image_mask], dim=1)`),
so the first `mapping_network_prefix_length` mask positions carry the text
mask (here `[true, false]` from a padded text token), not the all-true
vision segment sitting at the front of the embedding tensor. -/
theorem flmr_C2 :
    doc demoEnc (some [[5, 0]]) (some [[1, 1]]) none (some [[3]]) true true
      KeepDims.kReturnMask true =
      some { pooler_output := [[7]],
             late_interaction_output := LateOutput.tensor [[[7], [9], [5], [0]]],
             context_mask := some [[true, false, true, true]] } ∧
    List.take demoEnc.mappingPrefixLength (([[[7], [9], [5], [0]]] : Tensor3).getD 0 []) =
      ([[[7], [9]]] : Tensor3).getD 0 [] ∧
    List.take demoEnc.mappingPrefixLength
        (([[true, false, true, true]] : List (List Bool)).getD 0 []) ≠
      List.replicate demoEnc.mappingPrefixLength true := by
  have hkd : KeepDims.kReturnMask ≠ KeepDims.kFalse := by intro h; cases h
  refine ⟨?_, by decide, by decide⟩
  norm_num [doc, demoEnc, pooledVision, tokenMask, applyTokenMask,
    visionPseudoTokens, raggedSlices, sliceFirstToken, chunksOf, hkd,
    List.mapM, List.mapM.loop, List.replicate_succ, List.zip_cons_cons]

/-- CLAIM C7 (failing evaluation): with `keep_dims=False` the ragged list
of mask-true rows is built, but the return statement computes
`pooler_output = D[:, 0, :]` on that Python list, which raises
`TypeError`; the call never returns the ragged list. -/
theorem flmr_C7 :
    doc demoEnc (some [[5, 0]]) (some [[1, 1]]) none none false true
      KeepDims.kFalse false = none ∧
    raggedSlices [[[5], [0]]] [[true, false]] = [[[5]]] ∧
    sliceFirstToken (LateOutput.ragged [[[5]]]) = none := by
  refine ⟨?_, by decide, rfl⟩
  norm_num [doc, demoEnc, pooledVision, tokenMask, applyTokenMask,
    visionPseudoTokens, raggedSlices, sliceFirstToken, chunksOf]

/-- CLAIM C9: both `query` and `doc` fail (no partial result) when a raw
pixel tensor and precomputed image features are supplied together, and
when neither text inputs nor image inputs are provided. -/
theorem flmr_C9 {π : Type} (E : DocEnc π)
    (input_ids attention_mask : Option (List (List ℕ)))
    (pixel_values : Option π) (image_features : Option (List (List ℚ)))
    (cV cT : Bool) (kd : KeepDims) (rm : Bool)
    (h : (pixel_values.isSome ∧ image_features.isSome) ∨
      (input_ids = none ∧ attention_mask = none ∧
        pixel_values = none ∧ image_features = none)) :
    query E input_ids attention_mask pixel_values image_features cV cT = none ∧
    doc E input_ids attention_mask pixel_values image_features cV cT kd rm = none := by
  rcases h with ⟨h1, h2⟩ | ⟨h1, h2, h3, h4⟩
  · constructor
    · rw [query, if_pos (by rw [h1, h2]; rfl)]
    · rw [doc, if_pos (by rw [h1, h2]; rfl)]
  · subst h1; subst h2; subst h3; subst h4
    cases cV <;> cases cT <;> constructor <;> rfl

/-- Witness for C9: both error conditions at concrete inputs. -/
theorem flmr_C9_witness :
    ((some () : Option Unit).isSome ∧ (some [[3]] : Option (List (List ℚ))).isSome) ∧
    (query demoEnc (some [[5]]) (some [[1]]) (some ()) (some [[3]]) true true = none ∧
      doc demoEnc (some [[5]]) (some [[1]]) (some ()) (some [[3]]) true true
        KeepDims.kTrue true = none) ∧
    (query demoEnc none none none none true true = none ∧
      doc demoEnc none none none none true true KeepDims.kTrue true = none) :=
  ⟨⟨rfl, rfl⟩,
   flmr_C9 demoEnc (some [[5]]) (some [[1]]) (some ()) (some [[3]]) true true
     KeepDims.kTrue true (Or.inl ⟨rfl, rfl⟩),
   flmr_C9 demoEnc none none none none true true
     KeepDims.kTrue true (Or.inr ⟨rfl, rfl, rfl, rfl⟩)⟩

/-! ### Batch encoding (`FLMRModelForIndexing.docFromText`) -/

theorem mapM_eq_map {α β : Type} (f : α → Option β) (g : α → β) (l : List α)
    (h : ∀ a ∈ l, f a = some (g a)) : l.mapM f = some (l.map g) := by
  induction l with
  | nil => rfl
  | cons a l ih =>
    rw [List.mapM_cons, h a (List.mem_cons_self a l),
      ih (fun a' ha' => h a' (List.mem_cons_of_mem a ha'))]
    rfl

theorem mapM_headq_isSome {α : Type} (L : List (List α)) (h : ∀ d ∈ L, d ≠ []) :
    ∃ p, L.mapM List.head? = some p := by
  induction L with
  | nil => exact ⟨[], rfl⟩
  | cons d L ih =>
    obtain ⟨p, hp⟩ := ih (fun d' hd' => h d' (List.mem_cons_of_mem d hd'))
    cases d with
    | nil => exact absurd rfl (h [] (List.mem_cons_self [] L))
    | cons x xs =>
      refine ⟨x :: p, ?_⟩
      rw [List.mapM_cons, hp]
      rfl

/-- Every member of a chunk is a member of the chunked list. -/
theorem mem_of_mem_chunksOf {α : Type} (n : ℕ) (l : List α) (b : List α)
    (hb : b ∈ chunksOf n l) : ∀ p ∈ b, p ∈ l := by
  intro p hp
  have : p ∈ (chunksOf n l).flatten := List.mem_flatten.mpr ⟨b, hb, hp⟩
  rwa [chunksOf_flatten] at this

/-- Two lists of lists whose length tables agree have entries of equal
length at every index. -/
theorem getD_length_eq {α β : Type} (A : List (List α)) (B : List (List β))
    (hmap : A.map List.length = B.map List.length) (j : ℕ) :
    (A.getD j []).length = (B.getD j []).length := by
  have hAB : A.length = B.length := by
    have := congrArg List.length hmap
    simpa using this
  by_cases hj : j < A.length
  · have hjB : j < B.length := by omega
    have h1 : (A.getD j []).length = (A.map List.length).getD j 0 :=
      (getD_map List.length A j [] 0 hj).symm
    have h2 : (B.map List.length).getD j 0 = (B.getD j []).length :=
      getD_map List.length B j [] 0 hjB
    rw [h1, hmap, h2]
  · rw [List.getD_eq_default _ _ (by omega), List.getD_eq_default _ _ (by omega)]
    rfl

/-- The flattened mask-selected row count equals the sum of per-document
mask-true counts, given per-document row counts match mask lengths. -/
theorem flatten_zip_filter_count (Dr : List (List (List ℚ))) (Mr : List (List Bool))
    (hlen : Dr.length = Mr.length)
    (hpt : ∀ i, i < Dr.length → (Dr.getD i []).length = (Mr.getD i []).length) :
    ((((Dr.flatten).zip (Mr.flatten)).filter (fun p => p.2)).map Prod.fst).length =
      (Mr.map (fun m => (m.filter id).length)).sum := by
  induction Dr generalizing Mr with
  | nil =>
    cases Mr with
    | nil => simp
    | cons m Mr => simp at hlen
  | cons d Dr ih =>
    cases Mr with
    | nil => simp at hlen
    | cons m Mr =>
      have hdm : d.length = m.length := by
        have := hpt 0 (by simp)
        simpa using this
      simp only [List.flatten_cons]
      rw [List.zip_append hdm, List.filter_append, List.map_append, List.length_append]
      rw [List.length_map, filter_zip_length d m hdm]
      simp only [List.map_cons, List.sum_cons]
      congr 1
      exact ih Mr (by simpa using hlen)
        (fun i hi => by
          have := hpt (i + 1) (by simpa using Nat.succ_lt_succ hi)
          simpa using this)

/-- The text-only document batch embedding produced inside `doc`:
projected text encodings, token-masked, row-normalised and downcast. -/
def textBatchEmb {π : Type} (E : DocEnc π) (b : List (List ℕ × List ℕ)) : Tensor3 :=
  (applyTokenMask (E.textEnc (b.map Prod.fst) (b.map Prod.snd))
    (tokenMask (b.map Prod.fst) E.skiplist)).map
    (fun d => d.map (fun row => (E.normalizeRow row).map E.halfCast))

/-- Shape contract of the external text encoder, spec section 6: it
"returns per-token hidden states", i.e. one row per input row, one hidden
state per token. -/
def TextEncShape {π : Type} (E : DocEnc π) : Prop :=
  ∀ ids am : List (List ℕ), (E.textEnc ids am).length = ids.length ∧
    ∀ j, j < ids.length →
      ((E.textEnc ids am).getD j []).length = (ids.getD j []).length

theorem textBatchEmb_map_length {π : Type} (E : DocEnc π)
    (b : List (List ℕ × List ℕ)) (hshape : TextEncShape E) :
    (textBatchEmb E b).map List.length = b.map (fun p => p.1.length) := by
  have hX : (E.textEnc (b.map Prod.fst) (b.map Prod.snd)).length = b.length := by
    rw [(hshape (b.map Prod.fst) (b.map Prod.snd)).1, List.length_map]
  have hT : (tokenMask (b.map Prod.fst) E.skiplist).length = b.length := by
    simp [tokenMask]
  apply List.ext_getElem
  · simp only [List.length_map, textBatchEmb, applyTokenMask, List.length_zipWith,
      hX, hT, min_self]
  · intro i h1 h2
    have hib : i < b.length := by simpa using h2
    simp only [textBatchEmb, applyTokenMask, tokenMask, List.getElem_map,
      List.getElem_zipWith, List.length_map, List.length_zipWith]
    have hXi := (hshape (b.map Prod.fst) (b.map Prod.snd)).2 i
      (by rw [List.length_map]; exact hib)
    rw [List.getD_eq_getElem _ _ (by rw [hX]; exact hib),
      List.getD_eq_getElem _ _ (by rw [List.length_map]; exact hib)] at hXi
    rw [hXi]
    simp

theorem textBatchEmb_length {π : Type} (E : DocEnc π)
    (b : List (List ℕ × List ℕ)) (hshape : TextEncShape E) :
    (textBatchEmb E b).length = b.length := by
  have := congrArg List.length (textBatchEmb_map_length E b hshape)
  simpa using this

theorem textBatchEmb_ne_nil {π : Type} (E : DocEnc π)
    (b : List (List ℕ × List ℕ)) (hshape : TextEncShape E)
    (hb : ∀ p ∈ b, p.1 ≠ []) :
    ∀ d ∈ textBatchEmb E b, d ≠ [] := by
  intro d hd
  rcases List.mem_iff_getElem.mp hd with ⟨i, hi, hdi⟩
  have hib : i < b.length := by rw [← textBatchEmb_length E b hshape]; exact hi
  have h1 : ((textBatchEmb E b).map List.length).getD i 0 =
      (b.map (fun p => p.1.length)).getD i 0 := by
    rw [textBatchEmb_map_length E b hshape]
  rw [getD_map List.length _ i [] 0 hi,
    getD_map (fun p => p.1.length) b i ([], []) 0 hib] at h1
  have hmem : (b.getD i ([], [])) ∈ b := by
    rw [List.getD_eq_getElem _ _ hib]
    exact List.getElem_mem _
  have hpos : 0 < (b.getD i ([], [])).1.length :=
    List.length_pos_of_ne_nil (hb _ hmem)
  rw [← hdi, ← List.getD_eq_getElem _ [] hi]
  rw [← List.length_pos_iff_ne_nil, h1]
  exact hpos

theorem doc_text_batch {π : Type} (E : DocEnc π) (b : List (List ℕ × List ℕ))
    (hshape : TextEncShape E) (hb : ∀ p ∈ b, p.1 ≠ []) :
    doc E (some (b.map Prod.fst)) (some (b.map Prod.snd)) none none false true
      KeepDims.kReturnMask true =
      some { pooler_output := ((textBatchEmb E b).mapM List.head?).getD [],
             late_interaction_output := LateOutput.tensor (textBatchEmb E b),
             context_mask := some (tokenMask (b.map Prod.fst) E.skiplist) } := by
  obtain ⟨p, hp⟩ := mapM_headq_isSome _ (textBatchEmb_ne_nil E b hshape hb)
  have hkd : ¬ (KeepDims.kReturnMask = KeepDims.kFalse) := by intro h; cases h
  rw [doc]
  simp only [Option.isSome_none, Option.isSome_some, Bool.and_self, Bool.false_and,
    Bool.and_false, Bool.or_self, Bool.false_or, Bool.or_false, Bool.true_and,
    Bool.and_true, if_false, if_true, Option.bind_some, Option.map_some,
    Option.some_bind, if_neg hkd]
  simp only [sliceFirstToken]
  simp [hp]
  have hfold :
      (List.map (fun d => List.map (fun row => List.map E.halfCast (E.normalizeRow row)) d)
        (applyTokenMask (E.textEnc (List.map Prod.fst b) (List.map Prod.snd b))
          (tokenMask (List.map Prod.fst b) E.skiplist))) = textBatchEmb E b := rfl
  rw [hfold]
  refine ⟨p, hp, ?_, rfl⟩
  rw [show List.mapM.loop List.head? (textBatchEmb E b) [] = some p from hp]
  rfl

/-- The `keep_dims == 'flatten'` branch of `docFromText`. The collection
has already been tokenized by the external `context_tokenizer` and sorted
by the external `_sort_by_length` utility (spec section 6), which also
yields the restoring permutation `rev`; `sorted` holds one
`(input_ids, attention_mask)` row pair per document. The sorted documents
are split into contiguous batches of at most `bsize`, each batch is
encoded with `doc(..., keep_dims='return_mask')`, the outputs and masks
are concatenated and restored with `rev`, `doclens` is the per-document
mask-true count, and the embedding rows are flattened keeping only
mask-true rows. -/
def docFromText_flatten {π : Type} (E : DocEnc π) (cV cT : Bool)
    (sorted : List (List ℕ × List ℕ)) (bsize : ℕ) (rev : List ℕ) :
    Option (List (List ℚ) × List ℕ) :=
  (((chunksOf bsize sorted).mapM (fun b =>
      doc E (some (b.map Prod.fst)) (some (b.map Prod.snd)) none none cV cT
        KeepDims.kReturnMask true)).bind fun outs : List DocOutput =>
  (outs.mapM (fun o : DocOutput =>
      match o.late_interaction_output with
      | LateOutput.tensor t => some t
      | LateOutput.ragged _ => none)).bind fun Ds : List Tensor3 =>
  (outs.mapM (fun o : DocOutput => o.context_mask)).map fun Ms : List (List (List Bool)) =>
    let Dall : Tensor3 := Ds.flatten
    let Mall : List (List Bool) := Ms.flatten
    let Dr : Tensor3 := rev.map (fun j => Dall.getD j [])
    let Mr : List (List Bool) := rev.map (fun j => Mall.getD j [])
    ((((Dr.flatten).zip (Mr.flatten)).filter (fun p : List ℚ × Bool => p.2)).map Prod.fst,
     Mr.map (fun m2 : List Bool => (m2.filter id).length)))

/-- CLAIM C5: in flattened mode, `docFromText` returns `(D, doclens)` with
`sum(doclens)` equal to the number of rows of the flattened tensor,
`doclens[i]` equal to the mask-true count of original document `i`, and
`doclens` in original pre-sort order after `rev` restoration. `orig` is
the pre-sort collection; the hypotheses state the external sort/restore
contract (`rev` is the restoring permutation) and the text encoder's
shape contract. -/
theorem flmr_C5 {π : Type} (E : DocEnc π)
    (orig sorted : List (List ℕ × List ℕ)) (bsize : ℕ) (rev : List ℕ)
    (hshape : TextEncShape E)
    (hne : ∀ p ∈ sorted, p.1 ≠ [])
    (horig : orig.length = sorted.length)
    (hrevlen : rev.length = orig.length)
    (hrevrange : ∀ i, i < rev.length → rev.getD i 0 < sorted.length)
    (hrestore : ∀ i, i < orig.length →
      sorted.getD (rev.getD i 0) ([], []) = orig.getD i ([], [])) :
    ∃ Dflat doclens,
      docFromText_flatten E false true sorted bsize rev = some (Dflat, doclens) ∧
      doclens.sum = Dflat.length ∧
      doclens.length = orig.length ∧
      ∀ i, i < orig.length →
        doclens.getD i 0 =
          ((((orig.getD i ([], [])).1).map
            (fun x => decide (x ∉ E.skiplist) && decide (x ≠ 0))).filter id).length := by
  classical
  set batches := chunksOf bsize sorted with hbatches
  have hbmem : ∀ b ∈ batches, ∀ p ∈ b, p ∈ sorted :=
    fun b hb => mem_of_mem_chunksOf bsize sorted b hb
  -- step 1: the batched doc calls all succeed
  have houts : batches.mapM (fun b =>
      doc E (some (b.map Prod.fst)) (some (b.map Prod.snd)) none none false true
        KeepDims.kReturnMask true) =
      some (batches.map (fun b =>
        ({ pooler_output := ((textBatchEmb E b).mapM List.head?).getD [],
           late_interaction_output := LateOutput.tensor (textBatchEmb E b),
           context_mask := some (tokenMask (b.map Prod.fst) E.skiplist) } : DocOutput))) :=
    mapM_eq_map _ _ batches (fun b hb =>
      doc_text_batch E b hshape (fun p hp => hne p (hbmem b hb p hp)))
  -- step 2: extracting the tensors and masks succeeds
  have hDs : (batches.map (fun b =>
      ({ pooler_output := ((textBatchEmb E b).mapM List.head?).getD [],
         late_interaction_output := LateOutput.tensor (textBatchEmb E b),
         context_mask := some (tokenMask (b.map Prod.fst) E.skiplist) } : DocOutput))).mapM
      (fun o : DocOutput =>
        match o.late_interaction_output with
        | LateOutput.tensor t => some t
        | LateOutput.ragged _ => none) =
      some (batches.map (fun b => textBatchEmb E b)) := by
    rw [mapM_eq_map _
      (fun o : DocOutput => match o.late_interaction_output with
        | LateOutput.tensor t => t
        | LateOutput.ragged _ => []) _
      (fun o ho => by
        rcases List.mem_map.mp ho with ⟨b, _, hbo⟩
        rw [← hbo])]
    rw [List.map_map]
    rfl
  have hMs : (batches.map (fun b =>
      ({ pooler_output := ((textBatchEmb E b).mapM List.head?).getD [],
         late_interaction_output := LateOutput.tensor (textBatchEmb E b),
         context_mask := some (tokenMask (b.map Prod.fst) E.skiplist) } : DocOutput))).mapM
      (fun o : DocOutput => o.context_mask) =
      some (batches.map (fun b => tokenMask (b.map Prod.fst) E.skiplist)) := by
    rw [mapM_eq_map _ (fun o : DocOutput => o.context_mask.getD []) _
      (fun o ho => by
        rcases List.mem_map.mp ho with ⟨b, _, hbo⟩
        rw [← hbo]
        rfl)]
    rw [List.map_map]
    rfl
  -- the concatenated mask is the per-document token mask in sorted order
  have hMall : (batches.map (fun b => tokenMask (b.map Prod.fst) E.skiplist)).flatten =
      sorted.map (fun p =>
        p.1.map (fun x => decide (x ∉ E.skiplist) && decide (x ≠ 0))) := by
    have h1 : ∀ b : List (List ℕ × List ℕ),
        tokenMask (b.map Prod.fst) E.skiplist =
          b.map (fun p => p.1.map (fun x => decide (x ∉ E.skiplist) && decide (x ≠ 0))) := by
      intro b
      rw [tokenMask, List.map_map]
      rfl
    calc (batches.map (fun b => tokenMask (b.map Prod.fst) E.skiplist)).flatten
        = (batches.map (List.map (fun p : List ℕ × List ℕ =>
            p.1.map (fun x => decide (x ∉ E.skiplist) && decide (x ≠ 0))))).flatten := by
          rw [List.map_congr_left (fun b _ => h1 b)]
      _ = (chunksOf bsize (sorted.map (fun p =>
            p.1.map (fun x => decide (x ∉ E.skiplist) && decide (x ≠ 0))))).flatten := by
          rw [hbatches, ← chunksOf_map]
      _ = sorted.map (fun p =>
            p.1.map (fun x => decide (x ∉ E.skiplist) && decide (x ≠ 0))) :=
          chunksOf_flatten _ _
  -- the concatenated embeddings have the same per-document length table
  have hDlen : ((batches.map (fun b => textBatchEmb E b)).flatten).map List.length =
      ((batches.map (fun b => tokenMask (b.map Prod.fst) E.skiplist)).flatten).map
        List.length := by
    rw [List.map_flatten, List.map_flatten]
    congr 1
    rw [List.map_map, List.map_map]
    apply List.map_congr_left
    intro b _
    simp only [Function.comp]
    rw [textBatchEmb_map_length E b hshape, tokenMask, List.map_map, List.map_map]
    apply List.map_congr_left
    intro p _
    simp
  refine
    ⟨(((((rev.map (fun j => ((batches.map (fun b => textBatchEmb E b)).flatten).getD j [])).flatten).zip ((rev.map (fun j => ((batches.map (fun b => tokenMask (b.map Prod.fst) E.skiplist)).flatten).getD j [])).flatten)).filter (fun p : List ℚ × Bool => p.2)).map Prod.fst),
    ((rev.map (fun j => ((batches.map (fun b => tokenMask (b.map Prod.fst) E.skiplist)).flatten).getD j [])).map (fun m2 : List Bool => (m2.filter id).length)), ?_, ?_, ?_, ?_⟩
  · rw [docFromText_flatten]
    rw [← hbatches, houts, Option.some_bind, hDs, Option.some_bind, hMs]
    rfl
  · -- sum(doclens) = number of flattened rows
    symm
    apply flatten_zip_filter_count
    · simp
    · intro i hi
      rw [List.length_map] at hi
      rw [getD_map _ rev i 0 [] hi, getD_map _ rev i 0 [] hi]
      exact getD_length_eq _ _ hDlen (rev.getD i 0)
  · simp [hrevlen]
  · intro i hi
    have hir : i < rev.length := by omega
    rw [getD_map (fun m2 : List Bool => (m2.filter id).length) _ i [] 0
      (by rw [List.length_map]; exact hir)]
    rw [getD_map _ rev i 0 [] hir]
    rw [hMall]
    rw [getD_map _ sorted (rev.getD i 0) ([], []) []
      (hrevrange i hir)]
    rw [hrestore i hi]

/-- The demo encoder satisfies the text encoder shape contract. -/
theorem demoEnc_shape : TextEncShape demoEnc := by
  intro ids am
  constructor
  · simp [demoEnc]
  · intro j hj
    simp only [demoEnc]
    rw [getD_map (fun r => r.map (fun x : ℕ => [(x : ℚ)])) ids j [] [] hj,
      List.length_map]

/-- Witness for C5: two documents encoded in two batches of one, with the
restoring permutation `[1, 0]`. -/
theorem flmr_C5_witness :
    (∀ i, i < ([([5, 0], [1, 1]), ([5], [1])] : List (List ℕ × List ℕ)).length →
      ([([5], [1]), ([5, 0], [1, 1])] : List (List ℕ × List ℕ)).getD
          (([1, 0] : List ℕ).getD i 0) ([], []) =
        ([([5, 0], [1, 1]), ([5], [1])] : List (List ℕ × List ℕ)).getD i ([], [])) ∧
    (∃ Dflat doclens,
      docFromText_flatten demoEnc false true [([5], [1]), ([5, 0], [1, 1])] 1 [1, 0] =
        some (Dflat, doclens) ∧
      doclens.sum = Dflat.length ∧
      doclens.length = ([([5, 0], [1, 1]), ([5], [1])] : List (List ℕ × List ℕ)).length ∧
      ∀ i, i < ([([5, 0], [1, 1]), ([5], [1])] : List (List ℕ × List ℕ)).length →
        doclens.getD i 0 =
          ((((([([5, 0], [1, 1]), ([5], [1])] : List (List ℕ × List ℕ)).getD
              i ([], [])).1).map
            (fun x => decide (x ∉ demoEnc.skiplist) && decide (x ≠ 0))).filter
            id).length) :=
  ⟨by decide,
   flmr_C5 demoEnc [([5, 0], [1, 1]), ([5], [1])] [([5], [1]), ([5, 0], [1, 1])] 1 [1, 0]
     demoEnc_shape (by decide) (by decide) (by decide) (by decide) (by decide)⟩

/-! ### Dense mode of `docFromText` (`_stack_3D_tensors`) -/

/-- A Python value as handled by `_stack_3D_tensors`: a 3-D float tensor,
a 2-D integer tensor (token ids or attention masks), or a tuple (the
batch objects produced by `_split_into_batches`). -/
inductive PyVal where
  | tensor3 (t : Tensor3)
  | tensor2 (t : List (List ℕ))
  | tup (xs : List PyVal)

/-- `x.size(i)`: defined for tensors at an in-range dimension. A tuple
has no `.size` attribute (`AttributeError`) and a 2-D tensor has no
dimension 2 (`IndexError`); both are `none`. -/
def pySize : PyVal → ℕ → Option ℕ
  | PyVal.tensor3 t, 0 => some t.length
  | PyVal.tensor3 t, 1 => some (t.headD []).length
  | PyVal.tensor3 t, 2 => some ((t.headD []).headD []).length
  | PyVal.tensor2 t, 0 => some t.length
  | PyVal.tensor2 t, 1 => some (t.headD []).length
  | _, _ => none

/-- `_stack_3D_tensors(groups)`: read `x.size(0)` and `x.size(1)` of every
group and `groups[0].size(2)`, allocate a zero tensor of shape
`(sum sizes0, max sizes1, hdim)` and copy each group into
`output[offset:offset+x.size(0), :x.size(1)]` — i.e. zero-pad every
group's documents to the global maximum length and stack. Any `.size`
failure aborts (`none`). -/
def stack_3D_tensors (groups : List PyVal) : Option Tensor3 :=
  (groups.mapM (fun x => pySize x 0)).bind fun _ =>
  (groups.mapM (fun x => pySize x 1)).bind fun sizes1 =>
  (pySize (groups.headD (PyVal.tup [])) 2).bind fun hdim =>
  (groups.mapM (fun x =>
      match x with
      | PyVal.tensor3 t => some t
      | _ => none)).map fun ts : List Tensor3 =>
    (ts.map (fun t : Tensor3 => t.map
      (fun d : List (List ℚ) => d ++ List.replicate (sizes1.foldl max 0 - d.length)
        (List.replicate hdim (0 : ℚ))))).flatten

/-- The `keep_dims is True` branch of `docFromText`:
`D = _stack_3D_tensors(batches); return D[reverse_indices]`. `batches`
here is the list of tokenized batch tuples produced by
`_split_into_batches` — not `encoded_batches`, the list of encoded
outputs collected just above. -/
def docFromText_dense (batches : List PyVal) (rev : List ℕ) : Option Tensor3 :=
  (stack_3D_tensors batches).map fun D => rev.map (fun j => D.getD j [])

/-- CLAIM C6 (failing evaluation): in dense mode `docFromText` passes the
tokenized `batches` tuples to `_stack_3D_tensors`, whose first `.size`
access raises `AttributeError` — the call can never return the stacked
encoded outputs. On actual 3-D encoded outputs the same routine does
produce the zero-padded, stacked tensor the claim describes. -/
theorem flmr_C6 :
    docFromText_dense
      [PyVal.tup [PyVal.tensor2 [[101, 7]], PyVal.tensor2 [[1, 1]]],
       PyVal.tup [PyVal.tensor2 [[101, 8]], PyVal.tensor2 [[1, 1]]]] [0, 1] = none ∧
    stack_3D_tensors [PyVal.tensor3 [[[1], [2]]], PyVal.tensor3 [[[3]]]] =
      some [[[1], [2]], [[3], [0]]] := by
  exact ⟨rfl, rfl⟩

end FLMR

